import Mathlib

/-!
Verification development for the trigger simulator (src/simulator.js).

Strings are modelled as lists of characters (Str).  JS helper
parseChannels splits a comma-delimited string, trims each piece and
keeps the non-empty ones; absent or non-string input yields the empty
list.  The JS trim is modelled by removing leading and trailing
whitespace characters; String.prototype.split on a comma is modelled
by splitComma; Array.prototype.join of a list with separator ", " is
modelled by joinComma.
-/

abbrev Str := List Char

def isWS (c : Char) : Bool := c.isWhitespace

/-- Model of JS String.prototype.trim: drop leading and trailing whitespace. -/
def trim (s : Str) : Str := List.rdropWhile isWS (List.dropWhile isWS s)

/-- Model of JS s.split(",") on character lists. -/
def splitComma : Str → List Str
  | [] => [[]]
  | c :: cs =>
    if c = ',' then [] :: splitComma cs
    else
      match splitComma cs with
      | [] => [[c]]
      | h :: t => (c :: h) :: t

/-- The argument of parseChannels: a JS value that may be absent
(undefined/null), a non-string, or a string. -/
inductive ChannelInput where
  | absent
  | nonString
  | str (s : Str)
deriving DecidableEq

/-- The split/map(trim)/filter(truthy) pipeline from parseChannels. -/
def chanList (s : Str) : List Str :=
  ((splitComma s).map trim).filter (fun c => !c.isEmpty)

/-- Model of parseChannels (src/simulator.js lines 2-5): absent or
non-string input (and, via the falsy guard, the empty string) maps to
the empty list; otherwise split on commas, trim, drop empties. -/
def parseChannels : ChannelInput → List Str
  | .absent => []
  | .nonString => []
  | .str s => if s.isEmpty then [] else chanList s

/-- Model of JS list.join(", ") used by Trigger.serialize. -/
def joinComma : List Str → Str
  | [] => []
  | [x] => x
  | x :: y :: r => x ++ ',' :: ' ' :: joinComma (y :: r)

/-! Basic facts about splitComma. -/

theorem splitComma_ne_nil (s : Str) : splitComma s ≠ [] := by
  induction s with
  | nil => simp [splitComma]
  | cons c cs ih =>
    simp only [splitComma]
    split
    · simp
    · cases h : splitComma cs with
      | nil => simp
      | cons a t => simp

theorem not_mem_of_mem_splitComma (s : Str) :
    ∀ x ∈ splitComma s, ',' ∉ x := by
  induction s with
  | nil =>
    intro x hx
    simp [splitComma] at hx
    simp [hx]
  | cons c cs ih =>
    intro x hx
    simp only [splitComma] at hx
    split at hx
    · rcases List.mem_cons.mp hx with h | h
      · simp [h]
      · exact ih x h
    · rename_i hc
      cases h : splitComma cs with
      | nil => exact absurd h (splitComma_ne_nil cs)
      | cons a t =>
        rw [h] at hx
        rcases List.mem_cons.mp hx with h2 | h2
        · subst h2
          intro hmem
          rcases List.mem_cons.mp hmem with h3 | h3
          · exact hc h3.symm
          · exact ih a (h ▸ List.mem_cons_self a t) h3
        · exact ih x (h ▸ List.mem_cons_of_mem a h2)

theorem splitComma_append (a b : Str) (ha : ',' ∉ a) :
    splitComma (a ++ ',' :: b) = a :: splitComma b := by
  induction a with
  | nil => simp [splitComma]
  | cons c cs ih =>
    have hc : ¬ c = ',' := fun h => ha (h ▸ List.mem_cons_self c cs)
    have ih2 := ih (fun h => ha (List.mem_cons_of_mem c h))
    have ih3 : splitComma (cs.append (',' :: b)) = cs :: splitComma b := ih2
    simp only [List.cons_append, splitComma, if_neg hc]
    rw [ih3]

theorem splitComma_of_no_comma (a : Str) (ha : ',' ∉ a) :
    splitComma a = [a] := by
  induction a with
  | nil => simp [splitComma]
  | cons c cs ih =>
    have hc : ¬ c = ',' := fun h => ha (h ▸ List.mem_cons_self c cs)
    have ih2 := ih (fun h => ha (List.mem_cons_of_mem c h))
    simp only [splitComma, if_neg hc, ih2]

/-! Basic facts about trim. -/

theorem trim_cons_ws (c : Char) (s : Str) (h : isWS c = true) :
    trim (c :: s) = trim s := by
  simp [trim, List.dropWhile_cons, h]

theorem dropWhile_rdropWhile_eq_self {p : Char → Bool} {w : Str}
    (hw : List.dropWhile p w = w) :
    List.dropWhile p (List.rdropWhile p w) = List.rdropWhile p w := by
  obtain ⟨t, ht⟩ := List.rdropWhile_prefix p w
  cases h : List.rdropWhile p w with
  | nil => simp
  | cons a l =>
    have hw2 : w = a :: (l ++ t) := by rw [← ht, h, List.cons_append]
    have hpa : ¬ p a = true := by
      intro hpa
      rw [hw2, List.dropWhile_cons, if_pos hpa] at hw
      have hlen := congrArg List.length hw
      have hle := (List.dropWhile_suffix (l := l ++ t) p).sublist.length_le
      simp at hlen hle
      omega
    simp [List.dropWhile_cons, hpa]

theorem trim_trim (s : Str) : trim (trim s) = trim s := by
  have h1 : List.dropWhile isWS (trim s) = trim s := by
    have := List.dropWhile_idempotent (p := isWS) (l := s)
    exact dropWhile_rdropWhile_eq_self this
  rw [trim, h1, trim]
  exact List.rdropWhile_idempotent isWS _

theorem mem_of_mem_trim {c : Char} {s : Str} (h : c ∈ trim s) : c ∈ s := by
  have h1 : trim s ⊆ List.dropWhile isWS s :=
    (List.rdropWhile_prefix isWS _).sublist.subset
  have h2 : List.dropWhile isWS s ⊆ s :=
    (List.dropWhile_suffix isWS).sublist.subset
  exact h2 (h1 h)

/-- Every element produced by the parseChannels pipeline is non-empty,
comma-free and already trimmed. -/
theorem chanList_good (s : Str) :
    ∀ x ∈ chanList s, x ≠ [] ∧ ',' ∉ x ∧ trim x = x := by
  intro x hx
  simp only [chanList, List.mem_filter, List.mem_map] at hx
  obtain ⟨⟨y, hy, hyx⟩, hne⟩ := hx
  refine ⟨by simpa using hne, ?_, ?_⟩
  · intro hc
    exact not_mem_of_mem_splitComma s y hy (mem_of_mem_trim (hyx ▸ hc))
  · rw [← hyx, trim_trim]

theorem map_trim_splitComma_ws (w : Str) :
    (splitComma (' ' :: w)).map trim = (splitComma w).map trim := by
  cases h : splitComma w with
  | nil => exact absurd h (splitComma_ne_nil w)
  | cons a t =>
    have hspace : ¬ (' ' : Char) = ',' := by decide
    simp only [splitComma, if_neg hspace, h, List.map_cons]
    rw [trim_cons_ws ' ' a (by decide)]

/-- Parsing is a left inverse of joining on lists of good channel names. -/
theorem chanList_joinComma (l : List Str)
    (h : ∀ x ∈ l, x ≠ [] ∧ ',' ∉ x ∧ trim x = x) :
    chanList (joinComma l) = l := by
  induction l with
  | nil => simp [joinComma, chanList, splitComma, trim]
  | cons x r ih =>
    obtain ⟨hne, hnc, htr⟩ := h x (List.mem_cons_self x r)
    cases r with
    | nil =>
      have hx : (!x.isEmpty) = true := by simpa using hne
      simp [joinComma, chanList, splitComma_of_no_comma x hnc, htr, hx]
    | cons y r2 =>
      have ih2 := ih (fun z hz => h z (List.mem_cons_of_mem x hz))
      simp only [joinComma, splitComma_append x _ hnc, chanList,
        List.map_cons, map_trim_splitComma_ws, htr, List.filter_cons]
      have : (!x.isEmpty) = true := by simpa using hne
      rw [if_pos this]
      simp only [chanList] at ih2
      rw [ih2]

theorem joinComma_ne_nil (l : List Str) (hl : l ≠ [])
    (h : ∀ x ∈ l, x ≠ []) : joinComma l ≠ [] := by
  cases l with
  | nil => exact absurd rfl hl
  | cons x r =>
    cases r with
    | nil => simpa [joinComma] using h x (List.mem_cons_self x [])
    | cons y r2 =>
      have hx := h x (List.mem_cons_self x _)
      cases x with
      | nil => exact absurd rfl hx
      | cons c cs => simp [joinComma]

/-! The Trigger entity (src/simulator.js lines 7-129).  DOM fields
(element, x, y) and UI calls are presentation-only and omitted. -/

/-- A pending event in the queue (time, channel, sourceId). -/
structure Event where
  time : Int
  channel : Str
  sourceId : Str
deriving DecidableEq, Repr

structure Trigger where
  id : Str
  delay : Int
  activateOn : List Str
  deactivateOn : List Str
  triggerOn : List Str
  whenTriggered : Option Str
  initialState : Bool
  state : Bool
deriving DecidableEq, Repr

/-- The configuration object passed to the Trigger constructor and
produced by serialize.  Option models absent JS fields. -/
structure TriggerConfig where
  id : Str
  delay : Option Int
  activateOn : ChannelInput
  deactivateOn : ChannelInput
  triggerOn : ChannelInput
  whenTriggered : Option Str
  initialState : Option Bool
deriving DecidableEq

/-- JS x || 0 for a possibly-absent number. -/
def jsOrZero : Option Int → Int
  | none => 0
  | some d => if d = 0 then 0 else d

/-- JS x || null for a possibly-absent string: the empty string is falsy. -/
def jsOrNone : Option Str → Option Str
  | none => none
  | some s => if s = [] then none else some s

/-- JS x || false for a possibly-absent boolean. -/
def jsOrFalse : Option Bool → Bool
  | none => false
  | some b => b

/-- Model of the Trigger constructor (src/simulator.js lines 8-24). -/
def mkTrigger (config : TriggerConfig) : Trigger :=
  { id := config.id
    delay := jsOrZero config.delay
    activateOn := parseChannels config.activateOn
    deactivateOn := parseChannels config.deactivateOn
    triggerOn := parseChannels config.triggerOn
    whenTriggered := jsOrNone config.whenTriggered
    initialState := jsOrFalse config.initialState
    state := jsOrFalse config.initialState }

/-- Model of Trigger.prototype.serialize (src/simulator.js lines 117-129):
channel lists are joined with ", ", live state is NOT saved. -/
def Trigger.serialize (t : Trigger) : TriggerConfig :=
  { id := t.id
    delay := some t.delay
    activateOn := .str (joinComma t.activateOn)
    deactivateOn := .str (joinComma t.deactivateOn)
    triggerOn := .str (joinComma t.triggerOn)
    whenTriggered := t.whenTriggered
    initialState := some t.initialState }

/-- Model of Trigger.prototype.reset (src/simulator.js lines 105-108). -/
def Trigger.reset (t : Trigger) : Trigger := { t with state := t.initialState }

/-- Result of Trigger.prototype.handlePulse: the updated trigger, the
updated event queue and the returned handled flag. -/
structure PulseResult where
  trigger : Trigger
  queue : List Event
  handled : Bool
deriving DecidableEq

/-- Model of Trigger.prototype.handlePulse (src/simulator.js lines 43-67).
The three checks run in order on the same call; the trigger-fire check
reads the state already updated by the first two.  The JS guards
`channel && ...` are modelled by the channel ≠ [] conjuncts (a JS
string is truthy exactly when non-empty); `if (this.whenTriggered)`
likewise requires a non-empty channel name. -/
def Trigger.handlePulse (t : Trigger) (channel : Str) (queue : List Event)
    (currentTime : Int) : PulseResult :=
  let s1 := if channel ≠ [] ∧ channel ∈ t.activateOn then ({ t with state := true }, true)
            else (t, false)
  let s2 := if channel ≠ [] ∧ channel ∈ t.deactivateOn then ({ s1.1 with state := false }, true)
            else s1
  if channel ≠ [] ∧ channel ∈ t.triggerOn ∧ s2.1.state = true then
    match s2.1.whenTriggered with
    | some w =>
      if w ≠ [] then
        { trigger := s2.1
          queue := queue ++ [{ time := currentTime + s2.1.delay, channel := w,
                               sourceId := s2.1.id }]
          handled := true }
      else { trigger := s2.1, queue := queue, handled := true }
    | none => { trigger := s2.1, queue := queue, handled := true }
  else { trigger := s2.1, queue := queue, handled := s2.2 }

/-- A channel name as produced by parseChannels: non-empty, comma-free,
already trimmed. -/
def goodChan (c : Str) : Prop := c ≠ [] ∧ ',' ∉ c ∧ trim c = c

instance (c : Str) : Decidable (goodChan c) := by unfold goodChan; infer_instance

/-- Well-formedness of a trigger as established by the constructor:
all channel lists come from parseChannels and whenTriggered is never
the empty string. -/
def TriggerWF (t : Trigger) : Prop :=
  (∀ c ∈ t.activateOn, goodChan c) ∧ (∀ c ∈ t.deactivateOn, goodChan c) ∧
  (∀ c ∈ t.triggerOn, goodChan c) ∧ t.whenTriggered ≠ some []

instance (t : Trigger) : Decidable (TriggerWF t) := by unfold TriggerWF; infer_instance

theorem parseChannels_good (i : ChannelInput) :
    ∀ c ∈ parseChannels i, goodChan c := by
  intro c hc
  cases i with
  | absent => simp [parseChannels] at hc
  | nonString => simp [parseChannels] at hc
  | str s =>
    simp only [parseChannels] at hc
    split at hc
    · simp at hc
    · exact chanList_good s c hc

theorem mkTrigger_wf (config : TriggerConfig) : TriggerWF (mkTrigger config) := by
  refine ⟨parseChannels_good _, parseChannels_good _, parseChannels_good _, ?_⟩
  simp only [mkTrigger, jsOrNone]
  cases config.whenTriggered with
  | none => simp
  | some s =>
    by_cases h : s = [] <;> simp [h]

/-! The event queue ordering.  JS Array.prototype.sort with comparator
(a, b) => a.time - b.time is, per the ECMAScript specification, a
stable sort by time; it is modelled by the stable List.insertionSort
on the time order.  run() then shifts the first element off the sorted
queue. -/

def evLE (a b : Event) : Prop := a.time ≤ b.time

instance : DecidableRel evLE := fun a b => inferInstanceAs (Decidable (a.time ≤ b.time))

instance : IsTotal Event evLE := ⟨fun a b => Int.le_total a.time b.time⟩

instance : IsTrans Event evLE := ⟨fun _ _ _ hab hbc => Int.le_trans hab hbc⟩

/-- The queue after this.eventQueue.sort((a, b) => a.time - b.time). -/
def sortQueue (q : List Event) : List Event := q.insertionSort evLE

/-- sort-then-shift: remove and return the earliest event (FIFO among
equal times), together with the remaining (sorted) queue. -/
def popMin (q : List Event) : Option (Event × List Event) :=
  match sortQueue q with
  | [] => none
  | e :: rest => some (e, rest)

/-- The simulator state (src/simulator.js lines 132-162).  The registry
object this.triggers = {} is modelled as an insertion-ordered list;
this.activeTimeouts as the number of pending scheduled deliveries; UI
fields (pan/zoom, selection, DOM handles) are omitted. -/
structure SimState where
  triggers : List Trigger
  eventQueue : List Event
  time : Int
  isSimulating : Bool
  activeTimeouts : Nat
deriving DecidableEq

def EXTERNAL : Str := ['E', 'X', 'T', 'E', 'R', 'N', 'A', 'L']

/-- Result of broadcasting one event to every registered trigger. -/
structure BroadcastResult where
  triggers : List Trigger
  queue : List Event
  handled : Bool
deriving DecidableEq

/-- The Object.values(this.triggers).forEach loop inside run()
(src/simulator.js lines 327-331): deliver the channel to every trigger
in registry order, threading the event queue, and record whether at
least one trigger handled the pulse. -/
def broadcast : List Trigger → Str → List Event → Int → BroadcastResult
  | [], _, q, _ => ⟨[], q, false⟩
  | t :: ts, ch, q, time =>
    let r := t.handlePulse ch q time
    let rest := broadcast ts ch r.queue time
    ⟨r.trigger :: rest.triggers, rest.queue, r.handled || rest.handled⟩

/-- One iteration of the run loop (src/simulator.js lines 309-336):
sort the queue, shift the earliest event, advance the clock to its
time, broadcast its channel to all triggers.  The setTimeout pacing
delay (push then shift of activeTimeouts) nets to zero across the
completed step and the flash/log calls are presentation-only. -/
def processOne (s : SimState) : SimState :=
  match sortQueue s.eventQueue with
  | [] => s
  | e :: rest =>
    let b := broadcast s.triggers e.channel rest e.time
    { s with triggers := b.triggers, eventQueue := b.queue, time := e.time }

/-- The run loop (src/simulator.js lines 302-338), with explicit fuel
standing for the number of pacing steps the loop is allowed to take
(the JS loop recurses through setTimeout and can, in principle, run
forever on a self-sustaining trigger network). -/
def run : Nat → SimState → SimState
  | 0, s => s
  | fuel + 1, s =>
    if s.eventQueue = [] then { s with isSimulating := false }
    else run fuel (processOne s)

/-- The engine-clock values after each processed event of a run. -/
def runTimes : Nat → SimState → List Int
  | 0, _ => []
  | fuel + 1, s =>
    if s.eventQueue = [] then []
    else (processOne s).time :: runTimes fuel (processOne s)

/-- Registry lookup truthiness of this.triggers[id]. -/
def hasTriggerId (s : SimState) (id : Str) : Bool :=
  s.triggers.any (fun t => t.id == id)

/-- Model of Simulator.prototype.addTrigger (src/simulator.js lines
240-249): rejected (alert, return null) when the id is falsy or
already registered; otherwise the new trigger is registered. -/
def addTrigger (s : SimState) (config : TriggerConfig) :
    SimState × Option Trigger :=
  if config.id = [] ∨ hasTriggerId s config.id = true then (s, none)
  else ({ s with triggers := s.triggers ++ [mkTrigger config] },
        some (mkTrigger config))

/-- Model of Simulator.prototype.pulseChannel (src/simulator.js lines
260-273): rejected with a log line while a run is in progress,
rejected with an alert on an empty channel, otherwise push the
external event and start the run. -/
def pulseChannel (fuel : Nat) (s : SimState) (channel : Str) (time : Int) :
    SimState :=
  if s.isSimulating = true then s
  else if channel = [] then s
  else run fuel { s with
    isSimulating := true
    eventQueue := s.eventQueue ++ [⟨time, channel, EXTERNAL⟩] }

/-- The clock values traced by an injected pulse (empty when the
injection is rejected). -/
def pulseTrace (fuel : Nat) (s : SimState) (channel : Str) (time : Int) :
    List Int :=
  if s.isSimulating = true then []
  else if channel = [] then []
  else runTimes fuel { s with
    isSimulating := true
    eventQueue := s.eventQueue ++ [⟨time, channel, EXTERNAL⟩] }

/-- Model of Simulator.prototype.resetSimulation (src/simulator.js
lines 407-417): stop simulating, cancel all pending timeouts, empty
the queue, zero the clock, reset every trigger to its initial state. -/
def resetSimulation (s : SimState) : SimState :=
  { s with isSimulating := false
         , activeTimeouts := 0
         , eventQueue := []
         , time := 0
         , triggers := s.triggers.map Trigger.reset }

/-- Model of Simulator.prototype.clear (src/simulator.js lines
394-405): like reset but also empties the registry. -/
def clearState (_s : SimState) : SimState :=
  { triggers := [], eventQueue := [], time := 0, isSimulating := false,
    activeTimeouts := 0 }

/-- Outcome of JSON.parse on the loaded file, as consumed by
loadLayout: the text may fail to parse, parse to a non-array value, or
parse to an array of trigger configurations. -/
inductive LoadData where
  | malformed
  | nonArray
  | array (configs : List TriggerConfig)

/-- Model of the reader.onload body of Simulator.prototype.loadLayout
(src/simulator.js lines 445-457): on parse failure or a non-array
shape the catch branch alerts and the state is untouched (clear() runs
only after validation); on success the state is cleared and each
config re-added through addTrigger. -/
def loadLayout (s : SimState) : LoadData → SimState
  | .malformed => s
  | .nonArray => s
  | .array configs =>
    configs.foldl (fun st cfg => (addTrigger st cfg).1) (clearState s)

/-! Concrete data used to instantiate the theorems below. -/

def twit1 : Trigger :=
  ⟨['T', '1'], 2, [['A']], [], [['Y']], some ['W'], false, true⟩

def twit3 : Trigger :=
  ⟨['T', '3'], 0, [['X']], [['X']], [], none, true, true⟩

def twit10 : Trigger :=
  ⟨['T', '0'], 3, [['A'], ['B']], [['R']], [['Y']], some ['W'], false, true⟩

def sBusy : SimState := ⟨[twit3], [⟨4, ['q'], ['s']⟩], 7, true, 1⟩

def gateCfg : TriggerConfig :=
  ⟨['T', '_', 'C', 'H', 'A', 'I', 'N'], some 2,
   .str ['A', '_', 'O', 'N'], .str ['R', 'E', 'S', 'E', 'T'],
   .str ['B', '_', 'O', 'N'],
   some ['A', 'N', 'D', '_', 'S', 'U', 'C', 'C', 'E', 'S', 'S'], none⟩

def gateState : SimState := ⟨[mkTrigger gateCfg], [], 0, false, 0⟩

def dupCfg : TriggerConfig := ⟨['D'], none, .absent, .absent, .absent, none, none⟩

def sReg : SimState := ⟨[mkTrigger dupCfg], [], 0, false, 0⟩

/-! Helper lemmas. -/

/-- The empty-string guard of parseChannels is redundant: on any
string it returns the split/trim/filter pipeline. -/
theorem parseChannels_str_eq (s : Str) :
    parseChannels (.str s) = chanList s := by
  by_cases h : s = []
  · subst h; decide
  · simp [parseChannels, chanList, h]

/-- Parsing a ", "-joined list of good channel names gives the list back. -/
theorem parseChannels_joinComma (l : List Str) (h : ∀ x ∈ l, goodChan x) :
    parseChannels (.str (joinComma l)) = l := by
  cases l with
  | nil => decide
  | cons x r =>
    rw [parseChannels_str_eq]
    exact chanList_joinComma (x :: r) h

/-! Claim theorems. -/

/-- C7: parseChannels maps an absent or non-string input to the empty
list, maps a string to the ordered list of its comma-separated,
trimmed, non-empty substrings (duplicates preserved), and parsing is
idempotent through serialization: re-parsing the ", "-join of a parse
gives the same list, for every string input. -/
theorem parseChannels_idempotent :
    parseChannels .absent = [] ∧
    parseChannels .nonString = [] ∧
    (∀ s : Str,
      parseChannels (.str s) = ((splitComma s).map trim).filter (fun c => !c.isEmpty)) ∧
    (∀ s : Str,
      parseChannels (.str (joinComma (parseChannels (.str s)))) =
        parseChannels (.str s)) := by
  refine ⟨rfl, rfl, fun s => parseChannels_str_eq s, fun s => ?_⟩
  rw [parseChannels_str_eq s]
  exact parseChannels_joinComma (chanList s) (chanList_good s)

/-- C8: a load whose data fails to parse or parses to a non-array
value leaves the simulator state completely untouched. -/
theorem loadLayout_rejects_malformed (s : SimState) :
    loadLayout s .malformed = s ∧ loadLayout s .nonArray = s :=
  ⟨rfl, rfl⟩

/-- C4: resetSimulation restores every trigger to its own
initialState (not the state it last held), empties the event queue,
cancels all pending delayed deliveries, zeroes the clock and leaves
the engine idle. -/
theorem resetSimulation_spec (s : SimState) :
    (resetSimulation s).triggers =
      s.triggers.map (fun t => { t with state := t.initialState }) ∧
    (resetSimulation s).eventQueue = [] ∧
    (resetSimulation s).activeTimeouts = 0 ∧
    (resetSimulation s).time = 0 ∧
    (resetSimulation s).isSimulating = false := by
  refine ⟨?_, rfl, rfl, rfl, rfl⟩
  simp [resetSimulation, Trigger.reset]

/-- C5: while a run is in progress, pulseChannel is a rejected no-op:
the whole state (queue, clock, triggers, gate) is returned unchanged
and nothing is queued for later. -/
theorem pulseChannel_rejected_while_running (fuel : Nat) (s : SimState)
    (channel : Str) (time : Int) (h : s.isSimulating = true) :
    pulseChannel fuel s channel time = s ∧
    (pulseChannel fuel s channel time).eventQueue = s.eventQueue ∧
    (pulseChannel fuel s channel time).time = s.time ∧
    (pulseChannel fuel s channel time).triggers = s.triggers := by
  have he : pulseChannel fuel s channel time = s := by
    simp [pulseChannel, h]
  exact ⟨he, by rw [he], by rw [he], by rw [he]⟩

theorem pulseChannel_rejected_while_running_witness :
    sBusy.isSimulating = true ∧ pulseChannel 3 sBusy ['A'] 5 = sBusy :=
  ⟨rfl, (pulseChannel_rejected_while_running 3 sBusy ['A'] 5 rfl).1⟩

/-- C9: addTrigger fails synchronously (returns null, no state
mutated) when the id is empty or already registered; with a non-empty
fresh id the trigger is created and appended to the registry. -/
theorem addTrigger_spec (s : SimState) (config : TriggerConfig) :
    ((config.id = [] ∨ hasTriggerId s config.id = true) →
      addTrigger s config = (s, none)) ∧
    (config.id ≠ [] → hasTriggerId s config.id = false →
      addTrigger s config =
        ({ s with triggers := s.triggers ++ [mkTrigger config] },
         some (mkTrigger config))) := by
  constructor
  · intro h
    simp [addTrigger, h]
  · intro h1 h2
    simp [addTrigger, h1, h2]

theorem addTrigger_spec_witness :
    (dupCfg.id = [] ∨ hasTriggerId sReg dupCfg.id = true) ∧
    addTrigger sReg dupCfg = (sReg, none) :=
  ⟨by decide, (addTrigger_spec sReg dupCfg).1 (by decide)⟩

/-- C3: when the same channel is in both activateOn and deactivateOn,
delivering it leaves the trigger inactive (deactivation runs second),
whatever the prior state, and the pulse counts as handled. -/
theorem deactivation_wins (t : Trigger) (channel : Str) (q : List Event)
    (T : Int) (hwf : TriggerWF t)
    (ha : channel ∈ t.activateOn) (hd : channel ∈ t.deactivateOn) :
    (t.handlePulse channel q T).trigger.state = false ∧
    (t.handlePulse channel q T).handled = true := by
  have hch : channel ≠ [] := (hwf.1 channel ha).1
  simp [Trigger.handlePulse, hch, ha, hd]

theorem deactivation_wins_witness :
    TriggerWF twit3 ∧ ['X'] ∈ twit3.activateOn ∧ ['X'] ∈ twit3.deactivateOn ∧
    ((twit3.handlePulse ['X'] [] 0).trigger.state = false ∧
     (twit3.handlePulse ['X'] [] 0).handled = true) :=
  ⟨by decide, by decide, by decide,
   deactivation_wins twit3 ['X'] [] 0 (by decide) (by decide) (by decide)⟩

/-- C10: rebuilding a trigger from its serialized snapshot restores
id, delay, all three channel lists, whenTriggered and initialState
exactly, and the rebuilt trigger starts in its initialState rather
than in the live state it was serialized with. -/
theorem serialize_roundtrip (t : Trigger) (hwf : TriggerWF t) :
    mkTrigger t.serialize = { t with state := t.initialState } := by
  obtain ⟨ha, hd, htr, hw⟩ := hwf
  have hA := parseChannels_joinComma t.activateOn ha
  have hD := parseChannels_joinComma t.deactivateOn hd
  have hT := parseChannels_joinComma t.triggerOn htr
  have hdelay : jsOrZero (some t.delay) = t.delay := by
    by_cases h0 : t.delay = 0 <;> simp [jsOrZero, h0]
  have hwt : jsOrNone t.whenTriggered = t.whenTriggered := by
    cases hcase : t.whenTriggered with
    | none => rfl
    | some w =>
      have hne : ¬ w = [] := fun h => hw (by rw [hcase, h])
      simp [jsOrNone, hne]
  cases t with
  | mk id delay aOn dOn tOn wt init st =>
    simp_all [mkTrigger, Trigger.serialize, jsOrFalse]

theorem serialize_roundtrip_witness :
    TriggerWF twit10 ∧
    mkTrigger twit10.serialize = { twit10 with state := twit10.initialState } :=
  ⟨by decide, serialize_roundtrip twit10 (by decide)⟩

/-- C1: for constructor-built triggers, handlePulse returns true
exactly when the channel is in activateOn, or in deactivateOn, or in
triggerOn with the trigger active as evaluated after the
activation/deactivation checks of the same call; in that last case,
when whenTriggered is set exactly one event at currentTime + delay on
whenTriggered with this trigger as source is appended to the queue,
and when whenTriggered is absent the queue is unchanged but the call
still returns true; in every other case the queue is unchanged. -/
theorem handlePulse_spec (t : Trigger) (channel : Str) (q : List Event)
    (T : Int) (hwf : TriggerWF t) :
    ((t.handlePulse channel q T).handled = true ↔
      channel ∈ t.activateOn ∨ channel ∈ t.deactivateOn ∨
        (channel ∈ t.triggerOn ∧
          (t.handlePulse channel q T).trigger.state = true)) ∧
    ((channel ∈ t.triggerOn ∧ (t.handlePulse channel q T).trigger.state = true) →
      (∀ w, t.whenTriggered = some w →
        (t.handlePulse channel q T).queue = q ++ [⟨T + t.delay, w, t.id⟩]) ∧
      (t.whenTriggered = none →
        (t.handlePulse channel q T).queue = q ∧
        (t.handlePulse channel q T).handled = true)) ∧
    (¬(channel ∈ t.triggerOn ∧ (t.handlePulse channel q T).trigger.state = true) →
      (t.handlePulse channel q T).queue = q) := by
  obtain ⟨hwa, hwd, hwt, hww⟩ := hwf
  by_cases hch : channel = []
  · subst hch
    have hA : ([] : Str) ∉ t.activateOn := fun h => (hwa _ h).1 rfl
    have hD : ([] : Str) ∉ t.deactivateOn := fun h => (hwd _ h).1 rfl
    have hT : ([] : Str) ∉ t.triggerOn := fun h => (hwt _ h).1 rfl
    simp [Trigger.handlePulse, hA, hD, hT]
  · rcases hwq : t.whenTriggered with _ | w
    · by_cases ha : channel ∈ t.activateOn <;>
        by_cases hd : channel ∈ t.deactivateOn <;>
          by_cases htr : channel ∈ t.triggerOn <;>
            by_cases hst : t.state = true <;>
              simp_all [Trigger.handlePulse]
    · have hwne : ¬ w = [] := fun h => hww (by rw [hwq, h])
      by_cases ha : channel ∈ t.activateOn <;>
        by_cases hd : channel ∈ t.deactivateOn <;>
          by_cases htr : channel ∈ t.triggerOn <;>
            by_cases hst : t.state = true <;>
              simp_all [Trigger.handlePulse]

theorem handlePulse_spec_witness :
    TriggerWF twit1 ∧
    (((twit1.handlePulse ['Y'] [] 3).handled = true ↔
      ['Y'] ∈ twit1.activateOn ∨ ['Y'] ∈ twit1.deactivateOn ∨
        (['Y'] ∈ twit1.triggerOn ∧
          (twit1.handlePulse ['Y'] [] 3).trigger.state = true)) ∧
    ((['Y'] ∈ twit1.triggerOn ∧ (twit1.handlePulse ['Y'] [] 3).trigger.state = true) →
      (∀ w, twit1.whenTriggered = some w →
        (twit1.handlePulse ['Y'] [] 3).queue = [] ++ [⟨3 + twit1.delay, w, twit1.id⟩]) ∧
      (twit1.whenTriggered = none →
        (twit1.handlePulse ['Y'] [] 3).queue = [] ∧
        (twit1.handlePulse ['Y'] [] 3).handled = true)) ∧
    (¬(['Y'] ∈ twit1.triggerOn ∧ (twit1.handlePulse ['Y'] [] 3).trigger.state = true) →
      (twit1.handlePulse ['Y'] [] 3).queue = [])) :=
  ⟨by decide, handlePulse_spec twit1 ['Y'] [] 3 (by decide)⟩

/-- Stability of the queue sort: the head of the sorted queue is the
first-inserted event among those with minimal time. -/
theorem sortQueue_head_first_min :
    ∀ (q : List Event) (e : Event) (rest : List Event),
      sortQueue q = e :: rest →
      ∃ a b, q = a ++ e :: b ∧ ∀ x ∈ a, e.time < x.time := by
  intro q
  induction q with
  | nil => intro e rest h; simp [sortQueue, List.insertionSort] at h
  | cons x xs ih =>
    intro e rest h
    rw [sortQueue, List.insertionSort] at h
    cases hs : List.insertionSort evLE xs with
    | nil =>
      rw [hs] at h
      simp only [List.orderedInsert] at h
      have hx : x = e := (List.cons.inj h).1
      exact ⟨[], xs, by rw [hx]; rfl, by simp⟩
    | cons f fs =>
      rw [hs, List.orderedInsert] at h
      by_cases hc : evLE x f
      · rw [if_pos hc] at h
        have hx : x = e := (List.cons.inj h).1
        exact ⟨[], xs, by rw [hx]; rfl, by simp⟩
      · rw [if_neg hc] at h
        have hf : f = e := (List.cons.inj h).1
        obtain ⟨a, b, hq, hlt⟩ := ih f fs (by rw [sortQueue, hs])
        refine ⟨x :: a, b, ?_, ?_⟩
        · rw [hq, hf, List.cons_append]
        · intro z hz
          rcases List.mem_cons.mp hz with hzx | hza
          · have hle : ¬ x.time ≤ f.time := hc
            rw [← hf, hzx]
            omega
          · rw [← hf]
            exact hlt z hza

/-- C2: each pop removes and returns an event of minimal time, the
first-inserted one among equal times (the sorted queue is pairwise
non-decreasing, so successive pops are delivered in non-decreasing
time order); and the concrete push sequence with times [5, 2, 2, 8]
pops as 2 (first-inserted), 2 (second-inserted), 5, 8. -/
theorem queue_pop_spec :
    (∀ (q : List Event) (e : Event) (rest : List Event),
      popMin q = some (e, rest) →
        e ∈ q ∧ (∀ x ∈ q, e.time ≤ x.time) ∧
        List.Pairwise evLE (e :: rest) ∧
        (∃ a b, q = a ++ e :: b ∧ (∀ x ∈ a, e.time < x.time) ∧
          rest.Perm (a ++ b))) ∧
    (popMin [(⟨5, ['v'], ['p']⟩ : Event), ⟨2, ['w'], ['q']⟩,
             ⟨2, ['x'], ['r']⟩, ⟨8, ['y'], ['z']⟩] =
        some (⟨2, ['w'], ['q']⟩,
              [⟨2, ['x'], ['r']⟩, ⟨5, ['v'], ['p']⟩, ⟨8, ['y'], ['z']⟩]) ∧
     popMin [(⟨2, ['x'], ['r']⟩ : Event), ⟨5, ['v'], ['p']⟩, ⟨8, ['y'], ['z']⟩] =
        some (⟨2, ['x'], ['r']⟩, [⟨5, ['v'], ['p']⟩, ⟨8, ['y'], ['z']⟩]) ∧
     popMin [(⟨5, ['v'], ['p']⟩ : Event), ⟨8, ['y'], ['z']⟩] =
        some (⟨5, ['v'], ['p']⟩, [⟨8, ['y'], ['z']⟩]) ∧
     popMin [(⟨8, ['y'], ['z']⟩ : Event)] = some (⟨8, ['y'], ['z']⟩, [])) := by
  constructor
  · intro q e rest h
    have heq : sortQueue q = e :: rest := by
      unfold popMin at h
      cases hs : sortQueue q with
      | nil => rw [hs] at h; exact absurd h (by simp)
      | cons f fs =>
        rw [hs] at h
        simp only [Option.some.injEq, Prod.mk.injEq] at h
        rw [h.1, h.2]
    have hperm : List.Perm (e :: rest) q := by
      have := List.perm_insertionSort evLE q
      rw [← sortQueue, heq] at this
      exact this
    have hmem : e ∈ q := hperm.mem_iff.mp (List.mem_cons_self e rest)
    have hsorted : List.Pairwise evLE (e :: rest) := by
      have := List.sorted_insertionSort evLE q
      rw [← sortQueue, heq] at this
      exact this
    have hmin : ∀ x ∈ q, e.time ≤ x.time := by
      intro x hx
      rcases List.mem_cons.mp (hperm.mem_iff.mpr hx) with hxe | hxr
      · rw [hxe]
      · exact (List.pairwise_cons.mp hsorted).1 x hxr
    obtain ⟨a, b, hq, hlt⟩ := sortQueue_head_first_min q e rest heq
    refine ⟨hmem, hmin, hsorted, a, b, hq, hlt, ?_⟩
    have h2 : List.Perm (e :: rest) (e :: (a ++ b)) := by
      rw [hq] at hperm
      exact hperm.trans List.perm_middle
    exact h2.cons_inv
  · exact ⟨by decide, by decide, by decide, by decide⟩

theorem queue_pop_spec_witness :
    popMin [(⟨5, ['v'], ['p']⟩ : Event), ⟨2, ['w'], ['q']⟩] =
      some (⟨2, ['w'], ['q']⟩, [⟨5, ['v'], ['p']⟩]) ∧
    ((⟨2, ['w'], ['q']⟩ : Event) ∈ [(⟨5, ['v'], ['p']⟩ : Event), ⟨2, ['w'], ['q']⟩] ∧
     (∀ x ∈ [(⟨5, ['v'], ['p']⟩ : Event), ⟨2, ['w'], ['q']⟩],
        (⟨2, ['w'], ['q']⟩ : Event).time ≤ x.time) ∧
     List.Pairwise evLE [(⟨2, ['w'], ['q']⟩ : Event), ⟨5, ['v'], ['p']⟩] ∧
     (∃ a b, [(⟨5, ['v'], ['p']⟩ : Event), ⟨2, ['w'], ['q']⟩] =
        a ++ (⟨2, ['w'], ['q']⟩ : Event) :: b ∧
        (∀ x ∈ a, (⟨2, ['w'], ['q']⟩ : Event).time < x.time) ∧
        List.Perm [(⟨5, ['v'], ['p']⟩ : Event)] (a ++ b))) :=
  ⟨by decide, queue_pop_spec.1 _ _ _ (by decide)⟩

/-- handlePulse only ever rewrites the state field of the trigger. -/
theorem handlePulse_trigger_delay (t : Trigger) (channel : Str)
    (q : List Event) (T : Int) :
    (t.handlePulse channel q T).trigger.delay = t.delay := by
  simp only [Trigger.handlePulse]
  split_ifs <;> cases t.whenTriggered <;> simp_all <;> split_ifs <;> simp_all

/-- The queue handlePulse returns is either untouched or extended by
exactly the freshly scheduled event at currentTime + delay. -/
theorem handlePulse_queue_shape (t : Trigger) (channel : Str)
    (q : List Event) (T : Int) :
    (t.handlePulse channel q T).queue = q ∨
    ∃ w, t.whenTriggered = some w ∧
      (t.handlePulse channel q T).queue = q ++ [⟨T + t.delay, w, t.id⟩] := by
  rcases hwq : t.whenTriggered with _ | w
  · by_cases hch : channel = [] <;>
      by_cases ha : channel ∈ t.activateOn <;>
        by_cases hd : channel ∈ t.deactivateOn <;>
          by_cases htr : channel ∈ t.triggerOn <;>
            by_cases hst : t.state = true <;>
              simp_all [Trigger.handlePulse]
  · by_cases hwe : w = [] <;>
      by_cases hch : channel = [] <;>
        by_cases ha : channel ∈ t.activateOn <;>
          by_cases hd : channel ∈ t.deactivateOn <;>
            by_cases htr : channel ∈ t.triggerOn <;>
              by_cases hst : t.state = true <;>
                simp_all [Trigger.handlePulse]

/-- Every event handlePulse leaves in the queue was already there or
is the freshly scheduled one at currentTime + delay. -/
theorem handlePulse_queue_mem (t : Trigger) (channel : Str)
    (q : List Event) (T : Int) :
    ∀ e ∈ (t.handlePulse channel q T).queue, e ∈ q ∨ e.time = T + t.delay := by
  intro e he
  rcases handlePulse_queue_shape t channel q T with h | ⟨w, hwq, h⟩
  · rw [h] at he
    exact Or.inl he
  · rw [h] at he
    rcases List.mem_append.mp he with h2 | h2
    · exact Or.inl h2
    · right
      simp only [List.mem_singleton] at h2
      rw [h2]

theorem broadcast_delay_nonneg (ts : List Trigger) (channel : Str)
    (q : List Event) (T : Int) (hd : ∀ t ∈ ts, 0 ≤ t.delay) :
    ∀ t' ∈ (broadcast ts channel q T).triggers, 0 ≤ t'.delay := by
  induction ts generalizing q with
  | nil => intro t' ht'; simp [broadcast] at ht'
  | cons t ts ih =>
    intro t' ht'
    simp only [broadcast] at ht'
    rcases List.mem_cons.mp ht' with h | h
    · rw [h, handlePulse_trigger_delay]
      exact hd t (List.mem_cons_self t ts)
    · exact ih _ (fun z hz => hd z (List.mem_cons_of_mem t hz)) t' h

theorem broadcast_queue_lb (ts : List Trigger) (channel : Str)
    (q : List Event) (T : Int) (hd : ∀ t ∈ ts, 0 ≤ t.delay)
    (hq : ∀ e ∈ q, T ≤ e.time) :
    ∀ e ∈ (broadcast ts channel q T).queue, T ≤ e.time := by
  induction ts generalizing q with
  | nil => intro e he; exact hq e he
  | cons t ts ih =>
    intro e he
    simp only [broadcast] at he
    refine ih _ (fun z hz => hd z (List.mem_cons_of_mem t hz)) ?_ e he
    intro f hf
    rcases handlePulse_queue_mem t channel q T f hf with h | h
    · exact hq f h
    · have h0 : 0 ≤ t.delay := hd t (List.mem_cons_self t ts)
      omega

theorem processOne_invariant (s : SimState)
    (hd : ∀ t ∈ s.triggers, 0 ≤ t.delay)
    (hq : ∀ e ∈ s.eventQueue, s.time ≤ e.time)
    (hne : s.eventQueue ≠ []) :
    s.time ≤ (processOne s).time ∧
    (∀ t ∈ (processOne s).triggers, 0 ≤ t.delay) ∧
    (∀ e ∈ (processOne s).eventQueue, (processOne s).time ≤ e.time) := by
  cases heq : sortQueue s.eventQueue with
  | nil =>
    exfalso
    have := List.perm_insertionSort evLE s.eventQueue
    rw [← sortQueue, heq] at this
    exact hne this.symm.eq_nil
  | cons e rest =>
    have hperm : List.Perm (e :: rest) s.eventQueue := by
      have := List.perm_insertionSort evLE s.eventQueue
      rw [← sortQueue, heq] at this
      exact this
    have hmem : e ∈ s.eventQueue := hperm.mem_iff.mp (List.mem_cons_self e rest)
    have hsorted : List.Pairwise evLE (e :: rest) := by
      have := List.sorted_insertionSort evLE s.eventQueue
      rw [← sortQueue, heq] at this
      exact this
    have hrest : ∀ x ∈ rest, e.time ≤ x.time :=
      fun x hx => (List.pairwise_cons.mp hsorted).1 x hx
    have hres : processOne s =
        { s with triggers := (broadcast s.triggers e.channel rest e.time).triggers
               , eventQueue := (broadcast s.triggers e.channel rest e.time).queue
               , time := e.time } := by
      simp only [processOne, heq]
    rw [hres]
    refine ⟨hq e hmem, ?_, ?_⟩
    · exact broadcast_delay_nonneg s.triggers e.channel rest e.time hd
    · exact broadcast_queue_lb s.triggers e.channel rest e.time hd hrest

theorem runTimes_chain (fuel : Nat) :
    ∀ (s : SimState), (∀ t ∈ s.triggers, 0 ≤ t.delay) →
      (∀ e ∈ s.eventQueue, s.time ≤ e.time) →
      List.Chain' (· ≤ ·) (s.time :: runTimes fuel s) := by
  induction fuel with
  | zero => intro s _ _; simp [runTimes]
  | succ n ih =>
    intro s hd hq
    by_cases hne : s.eventQueue = []
    · simp [runTimes, hne]
    · obtain ⟨h1, h2, h3⟩ := processOne_invariant s hd hq hne
      simp only [runTimes, if_neg hne]
      exact List.chain'_cons.mpr ⟨h1, ih (processOne s) h2 h3⟩

/-- C6: during a single run started by injecting a pulse at a time no
earlier than the engine clock, with all trigger delays non-negative,
the successive values the clock is advanced to are non-decreasing. -/
theorem engine_clock_monotone (fuel : Nat) (s : SimState) (channel : Str)
    (T : Int) (hd : ∀ t ∈ s.triggers, 0 ≤ t.delay)
    (hq0 : s.eventQueue = []) (hT : s.time ≤ T) :
    List.Chain' (· ≤ ·) (s.time :: pulseTrace fuel s channel T) := by
  unfold pulseTrace
  split_ifs with h1 h2
  · simp
  · simp
  · refine runTimes_chain fuel
      { s with
        isSimulating := true
        eventQueue := s.eventQueue ++ [⟨T, channel, EXTERNAL⟩] } hd ?_
    intro e he
    simp only [hq0, List.nil_append, List.mem_singleton] at he
    rw [he]
    exact hT

theorem engine_clock_monotone_witness :
    (∀ t ∈ gateState.triggers, 0 ≤ t.delay) ∧ gateState.eventQueue = [] ∧
    gateState.time ≤ 0 ∧
    List.Chain' (· ≤ ·)
      (gateState.time :: pulseTrace 6 gateState ['A', '_', 'O', 'N'] 0) :=
  ⟨by decide, rfl, by decide,
   engine_clock_monotone 6 gateState ['A', '_', 'O', 'N'] 0 (by decide) rfl
     (by decide)⟩
